import Mathlib

/-!
Verification of the Advent-of-Code 2022 day 24 solver ("blizzard valley"
time-varying grid search, `src/day24.rs`).

The Rust data model and operations are embedded shallowly:
machine integers (`i32`) become `Int` (grid coordinates stay tiny, no overflow
is reachable for the modelled operations), `usize`/`u32` tick counts become
`Nat`, `HashSet` membership becomes list membership, and the panic sites
(`unwrap`, `Vec` indexing, `expect`) become `Option`/outcome values.

The call to `pathfinding::prelude::astar` is external library code; it is
modelled here as an executable best-first search (`astarLoop`): a priority
queue ordered by estimated cost (`f = g + h`, ties preferring larger `g`,
mirroring the crate's `SmallestCostHolder` ordering), popping the best entry,
returning its cost on the first popped goal node, and otherwise pushing the
successor entries produced by the closure from `arrival_time`.  The crate's
duplicate-node pruning map is omitted: it only avoids re-expanding states and
cannot change the returned cost, which is the subject of every claim below.
Termination is made explicit with a fuel parameter (`SearchOutcome.timeout`),
since the Rust search has no structural termination measure.
-/

namespace Day24

/-- `Direction` from day24.rs. -/
inductive Direction where
  | Right
  | Down
  | Left
  | Up
deriving DecidableEq, Repr

abbrev Point := Int × Int

abbrev Blizzard := Point × Direction

/-- The `State` struct from day24.rs: the valley at one instant. -/
structure State where
  obstacles : List Point
  blizzards : List Blizzard
  dimensions : Int × Int
  start : Point
  «end» : Point
deriving DecidableEq, Repr

/-- `State::move_blizzard`: advance one blizzard one cell, wrapping at the
edges of the interior by special-casing the two boundary coordinates. -/
def State.move_blizzard (self : State) (blizzard : Blizzard) : Blizzard :=
  let coords := blizzard.1
  let new_coords :=
    match blizzard.2 with
    | Direction.Right =>
        if coords.2 = self.dimensions.2 - 1 then (coords.1, 0)
        else (coords.1, coords.2 + 1)
    | Direction.Down =>
        if coords.1 = self.dimensions.1 - 1 then (0, coords.2)
        else (coords.1 + 1, coords.2)
    | Direction.Left =>
        if coords.2 = 0 then (coords.1, self.dimensions.2 - 1)
        else (coords.1, coords.2 - 1)
    | Direction.Up =>
        if coords.1 = 0 then (self.dimensions.1 - 1, coords.2)
        else (coords.1 - 1, coords.2)
  (new_coords, blizzard.2)

/-- `State::next`: the valley one tick later.  Every blizzard moves forward,
and the occupied-cell set is rebuilt from the moved blizzards. -/
def State.next (self : State) : State :=
  let blizzards := self.blizzards.map self.move_blizzard
  { obstacles := blizzards.map (fun b => b.1)
    blizzards := blizzards
    dimensions := self.dimensions
    start := self.start
    «end» := self.«end» }

/-- `neighbors` from day24.rs: the candidate cells (wait plus the four
orthogonal moves), filtered to those that are the start, the end, or an
in-bounds cell not occupied by a blizzard. -/
def neighbors (state : State) (point : Point) : List Point :=
  (([((0 : Int), (0 : Int)), (-1, 0), (1, 0), (0, -1), (0, 1)]).map
      (fun d => (point.1 + d.1, point.2 + d.2))).filter
    (fun p => decide (p = state.start ∨ p = state.«end» ∨
      (0 ≤ p.1 ∧ p.1 < state.dimensions.1 ∧ 0 ≤ p.2 ∧ p.2 < state.dimensions.2 ∧
        p ∉ state.obstacles)))

/-- The A* heuristic of `arrival_time`: Manhattan distance
`end.0.abs_diff(p.0) + end.1.abs_diff(p.1)`. -/
def heuristic (e p : Point) : Nat := (e.1 - p.1).natAbs + (e.2 - p.2).natAbs

/-- One queue entry of the modelled A* search, as in the pathfinding crate's
`SmallestCostHolder`: estimated cost `f`, cost so far `g`, and the search
node (position, tick). -/
structure Entry where
  f : Nat
  g : Nat
  node : Point × Nat
deriving DecidableEq, Repr

/-- Remove a best entry (smallest `f`; ties prefer larger `g`, as in the
crate's heap ordering) from the queue. -/
def popMin : List Entry → Option (Entry × List Entry)
  | [] => none
  | e :: rest =>
    match popMin rest with
    | none => some (e, [])
    | some (b, rest1) =>
      if b.f < e.f ∨ (b.f = e.f ∧ e.g < b.g) then some (b, e :: rest1)
      else some (e, rest)

/-- The cache-extension step at the top of the successors closure in
`arrival_time`: if no state exists for `time + 1` yet, generate it from the
last cached state.  `none` models the panic of `states.last().unwrap()` on an
empty cache. -/
def ensureStates (states : List State) (time : Nat) : Option (List State) :=
  if states.length ≤ 1 + time then
    match states.getLast? with
    | none => none
    | some last => some (states ++ [last.next])
  else some states

/-- The successors closure of `arrival_time`: extend the cache if needed, then
read the slice for `time + 1` and pair every neighbor with edge cost 1.
`none` models the two panic sites (the `unwrap` and the `states[time + 1]`
index). -/
def astarSuccessors (states : List State) (p : Point) (time : Nat) :
    Option (List ((Point × Nat) × Nat) × List State) :=
  match ensureStates states time with
  | none => none
  | some states1 =>
    match states1.get? (time + 1) with
    | none => none
    | some st => some ((neighbors st p).map (fun n => ((n, time + 1), 1)), states1)

/-- Result of one `arrival_time` call.  `found` carries the returned tick and
the final cache; `noPath` is `astar` returning `None` (the `expect` panics);
`cachePanic` is a panic inside the successors closure; `timeout` is fuel
exhaustion of the embedding. -/
inductive SearchOutcome where
  | found (tick : Nat) (states : List State)
  | noPath (states : List State)
  | cachePanic
  | timeout
deriving DecidableEq, Repr

/-- The modelled best-first loop of `pathfinding::astar` as invoked by
`arrival_time`: pop the best entry, return its cost if it is the goal,
otherwise push its successors with `g' = g + 1` and `f' = g' + h`. -/
def astarLoop (goal : Point) : Nat → List Entry → List State → SearchOutcome
  | 0, _, _ => SearchOutcome.timeout
  | fuel + 1, toSee, states =>
    match popMin toSee with
    | none => SearchOutcome.noPath states
    | some (e, rest) =>
      if e.node.1 = goal then SearchOutcome.found e.g states
      else
        match astarSuccessors states e.node.1 e.node.2 with
        | none => SearchOutcome.cachePanic
        | some (succ, states1) =>
          astarLoop goal fuel
            (rest ++ succ.map (fun sc =>
              { f := e.g + sc.2 + heuristic goal sc.1.1
                g := e.g + sc.2
                node := sc.1 }))
            states1

/-- `arrival_time` from day24.rs: run the search from `(start, start_time)`
with goal `end` and add the start time back onto the returned distance. -/
def arrival_time (start «end» : Point) (start_time : Nat) (states : List State)
    (fuel : Nat) : SearchOutcome :=
  match astarLoop «end» fuel [{ f := 0, g := 0, node := (start, start_time) }] states with
  | SearchOutcome.found distance states1 =>
      SearchOutcome.found (start_time + distance) states1
  | r => r

/-- `part1`: a fresh cache holding only the initial state, one leg from start
to end departing at tick 0. -/
def part1 (input : State) (fuel : Nat) : SearchOutcome :=
  arrival_time input.start input.«end» 0 [input] fuel

/-- `part2`: three chained legs (start→end, end→start, start→end), each leg
departing at the previous leg's arrival tick, all sharing one cache. -/
def part2 (input : State) (fuel : Nat) : SearchOutcome :=
  match arrival_time input.start input.«end» 0 [input] fuel with
  | SearchOutcome.found get_to_end states1 =>
    match arrival_time input.«end» input.start get_to_end states1 fuel with
    | SearchOutcome.found back_to_start states2 =>
        arrival_time input.start input.«end» back_to_start states2 fuel
    | r => r
  | r => r

/-! ### Ground-truth model: time slices and reachability -/

/-- A cell lies in the bounded interior `[0,H) x [0,W)` of the valley. -/
def InInterior (s : State) (p : Point) : Prop :=
  0 ≤ p.1 ∧ p.1 < s.dimensions.1 ∧ 0 ≤ p.2 ∧ p.2 < s.dimensions.2

instance (s : State) (p : Point) : Decidable (InInterior s p) := by
  unfold InInterior; infer_instance

/-- The cache of time slices built by `arrival_time` is a gapless prefix of
the iterates of the initial state: entry `i` is the valley after `i` ticks. -/
def CacheChain (s0 : State) (states : List State) : Prop :=
  ∀ i < states.length, states.get? i = some (State.next^[i] s0)

instance (s0 : State) (states : List State) : Decidable (CacheChain s0 states) := by
  unfold CacheChain; infer_instance

/-- Reachability through the time-expanded graph: `ReachF s0 p t q u` holds
when a traveler at position `p` at absolute tick `t` can be at position `q`
at absolute tick `u` using only the transitions of the neighbor rule (one
tick per move, moving into `neighbors` of the slice at the next tick). -/
inductive ReachF (s0 : State) (start : Point) (t0 : Nat) : Point → Nat → Prop where
  | refl : ReachF s0 start t0 start t0
  | step {p : Point} {t : Nat} {q : Point} :
      ReachF s0 start t0 p t → q ∈ neighbors (State.next^[t + 1] s0) p →
      ReachF s0 start t0 q (t + 1)

/-- The executable frontier: positions reachable exactly `k` ticks after the
departure tick `t0`. -/
def reachSet (s0 : State) (start : Point) (t0 : Nat) : Nat → List Point
  | 0 => [start]
  | k + 1 =>
      ((reachSet s0 start t0 k).flatMap
        (fun p => neighbors (State.next^[t0 + k + 1] s0) p)).dedup

/-- Modelled from the spec: a plain breadth-first search by tick over the same
time-expanded graph (all edge costs 1), expanding the whole frontier one tick
at a time and returning the first tick whose frontier contains the goal. -/
def bfsLoop (s0 : State) (goal : Point) : Nat → List Point → Nat → Option Nat
  | 0, _, _ => none
  | fuel + 1, frontier, t =>
    if goal ∈ frontier then some t
    else
      bfsLoop s0 goal fuel
        ((frontier.flatMap (fun p => neighbors (State.next^[t + 1] s0) p)).dedup) (t + 1)

/-- Modelled from the spec: breadth-first search from `(start, t0)` to `goal`,
the comparison point demanded by the BFS-equivalence property. -/
def bfsArrival (s0 : State) (start goal : Point) (t0 : Nat) (fuel : Nat) : Option Nat :=
  bfsLoop s0 goal fuel [start] t0

/-! ### Basic preservation lemmas -/

theorem next_dimensions (s : State) : s.next.dimensions = s.dimensions := rfl

theorem next_start (s : State) : s.next.start = s.start := rfl

theorem next_end (s : State) : s.next.«end» = s.«end» := rfl

theorem iterate_dimensions (s : State) (n : Nat) :
    (State.next^[n] s).dimensions = s.dimensions := by
  induction n with
  | zero => rfl
  | succ n ih => rw [Function.iterate_succ_apply', next_dimensions, ih]

theorem iterate_start (s : State) (n : Nat) :
    (State.next^[n] s).start = s.start := by
  induction n with
  | zero => rfl
  | succ n ih => rw [Function.iterate_succ_apply', next_start, ih]

theorem iterate_end (s : State) (n : Nat) :
    (State.next^[n] s).«end» = s.«end» := by
  induction n with
  | zero => rfl
  | succ n ih => rw [Function.iterate_succ_apply', next_end, ih]

/-! ### Reachability lemmas -/

theorem ReachF.le_tick {s0 : State} {start : Point} {t0 : Nat} {q : Point} {u : Nat}
    (h : ReachF s0 start t0 q u) : t0 ≤ u := by
  induction h with
  | refl => exact le_rfl
  | step _ _ ih => omega

theorem ReachF.inv_step {s0 : State} {start : Point} {t0 : Nat} {q : Point} {u : Nat}
    (h : ReachF s0 start t0 q u) :
    (q = start ∧ u = t0) ∨
      ∃ p t, ReachF s0 start t0 p t ∧ q ∈ neighbors (State.next^[t + 1] s0) p ∧ u = t + 1 := by
  cases h with
  | refl => exact Or.inl ⟨rfl, rfl⟩
  | step h hm => exact Or.inr ⟨_, _, h, hm, rfl⟩

theorem ReachF.eq_of_tick_eq {s0 : State} {start : Point} {t0 : Nat} {q : Point}
    (h : ReachF s0 start t0 q t0) : q = start := by
  rcases h.inv_step with ⟨hq, _⟩ | ⟨p, t, h1, _, he⟩
  · exact hq
  · exact absurd h1.le_tick (by omega)

theorem ReachF.trans {s0 : State} {a : Point} {ta : Nat} {b : Point} {tb : Nat}
    {c : Point} {tc : Nat} (h1 : ReachF s0 a ta b tb) (h2 : ReachF s0 b tb c tc) :
    ReachF s0 a ta c tc := by
  induction h2 with
  | refl => exact h1
  | step _ hm ih => exact ReachF.step ih hm

/-- A path that has not yet arrived decomposes into a first transition
followed by a path departing one tick later. -/
theorem ReachF.first_step {s0 : State} {p : Point} {t : Nat} {q : Point} {u : Nat}
    (h : ReachF s0 p t q u) (hlt : t < u) :
    ∃ p2, p2 ∈ neighbors (State.next^[t + 1] s0) p ∧ ReachF s0 p2 (t + 1) q u := by
  induction h with
  | refl => omega
  | step h1 hm ih =>
    rename_i pm tm qm
    rcases Nat.lt_or_ge t tm with hcase | hcase
    · obtain ⟨p2, hp2, hr⟩ := ih hcase
      exact ⟨p2, hp2, ReachF.step hr hm⟩
    · have htm : tm = t := le_antisymm hcase h1.le_tick
      subst htm
      have hpm : pm = p := h1.eq_of_tick_eq
      subst hpm
      exact ⟨qm, hm, ReachF.refl⟩

/-- Every accepted neighbor is the center plus one of the five offsets. -/
theorem mem_neighbors_offset {st : State} {p q : Point} (h : q ∈ neighbors st p) :
    ∃ d ∈ [((0 : Int), (0 : Int)), (-1, 0), (1, 0), (0, -1), (0, 1)],
      q = (p.1 + d.1, p.2 + d.2) := by
  unfold neighbors at h
  obtain ⟨hmem, -⟩ := List.mem_filter.mp h
  obtain ⟨d, hd, hq⟩ := List.mem_map.mp hmem
  exact ⟨d, hd, hq.symm⟩

theorem neighbors_length_le (st : State) (p : Point) : (neighbors st p).length ≤ 5 := by
  unfold neighbors
  exact le_trans (List.length_filter_le _ _) (by simp)

/-- Admissibility of the Manhattan heuristic: any path from `p` at tick `t`
to `q` at tick `u` takes at least `heuristic q p` ticks. -/
theorem heuristic_le_of_reachF {s0 : State} {p : Point} {t : Nat} {q : Point} {u : Nat}
    (h : ReachF s0 p t q u) : heuristic q p ≤ u - t := by
  induction h with
  | refl => simp [heuristic]
  | step h1 hm ih =>
    rename_i pm tm qm
    obtain ⟨d, hd, hq⟩ := mem_neighbors_offset hm
    have hdb : d.1.natAbs + d.2.natAbs ≤ 1 := by fin_cases hd <;> decide
    have ht : t ≤ tm := h1.le_tick
    have h1' : (qm.1 - p.1).natAbs ≤ (pm.1 - p.1).natAbs + d.1.natAbs := by
      have : qm.1 - p.1 = (pm.1 - p.1) + d.1 := by rw [hq]; ring
      rw [this]; exact Int.natAbs_add_le _ _
    have h2' : (qm.2 - p.2).natAbs ≤ (pm.2 - p.2).natAbs + d.2.natAbs := by
      have : qm.2 - p.2 = (pm.2 - p.2) + d.2 := by rw [hq]; ring
      rw [this]; exact Int.natAbs_add_le _ _
    unfold heuristic at ih ⊢
    omega

/-- The executable frontier agrees with the reachability relation. -/
theorem mem_reachSet_iff {s0 : State} {start : Point} {t0 : Nat} {k : Nat} {q : Point} :
    q ∈ reachSet s0 start t0 k ↔ ReachF s0 start t0 q (t0 + k) := by
  induction k generalizing q with
  | zero =>
    simp only [reachSet, List.mem_singleton, Nat.add_zero]
    constructor
    · rintro rfl; exact ReachF.refl
    · exact fun h => h.eq_of_tick_eq
  | succ k ih =>
    simp only [reachSet, List.mem_dedup, List.mem_flatMap]
    constructor
    · rintro ⟨p, hp, hn⟩
      exact ReachF.step (ih.mp hp) (by simpa using hn)
    · intro h
      rcases h.inv_step with ⟨_, he⟩ | ⟨p, t, h1, hm, he⟩
      · omega
      · have htk : t = t0 + k := by omega
        subst htk
        exact ⟨p, ih.mpr h1, by simpa using hm⟩

/-! ### Cache lemmas -/

theorem cacheChain_get {s0 : State} {states : List State} (hc : CacheChain s0 states)
    {i : Nat} {st : State} (h : states.get? i = some st) : st = State.next^[i] s0 := by
  have hi : i < states.length := by
    by_contra hcon
    rw [List.get?_eq_none.mpr (le_of_not_lt hcon)] at h
    cases h
  have h2 := hc i hi
  rw [h] at h2
  exact Option.some_injective _ h2

theorem cacheChain_append {s0 : State} {states : List State} {last : State}
    (hc : CacheChain s0 states) (hlast : states.getLast? = some last) :
    CacheChain s0 (states ++ [last.next]) := by
  have hpos : 0 < states.length := by
    cases states with
    | nil => cases hlast
    | cons a l => simp
  intro i hi
  rw [List.length_append, List.length_singleton] at hi
  rcases Nat.lt_or_ge i states.length with hi2 | hi2
  · rw [List.get?_append hi2]
    exact hc i hi2
  · have hieq : i = states.length := by omega
    subst hieq
    rw [List.get?_concat_length]
    have hl2 : last = State.next^[states.length - 1] s0 := by
      refine cacheChain_get hc ?_
      rw [← List.getLast?_eq_get? states]
      exact hlast
    have hstep : (State.next^[states.length - 1] s0).next = State.next^[states.length] s0 := by
      have h1 := Function.iterate_succ_apply' State.next (states.length - 1) s0
      rw [← h1]
      congr 1
      omega
    rw [hl2, hstep]

theorem ensureStates_some_inv {s0 : State} {states states1 : List State} {time : Nat}
    (hc : CacheChain s0 states) (h : ensureStates states time = some states1) :
    CacheChain s0 states1 ∧ states.length ≤ states1.length ∧
      states1.length ≤ states.length + 1 ∧
      (states.length ≤ 1 + time → states1.length = states.length + 1) := by
  unfold ensureStates at h
  by_cases hlen : states.length ≤ 1 + time
  · rw [if_pos hlen] at h
    cases hlast : states.getLast? with
    | none => rw [hlast] at h; cases h
    | some last =>
      rw [hlast] at h
      have hs1 : states1 = states ++ [last.next] := (Option.some_injective _ h).symm
      subst hs1
      refine ⟨cacheChain_append hc hlast, ?_, ?_, ?_⟩ <;> simp
  · rw [if_neg hlen] at h
    have hs1 : states1 = states := (Option.some_injective _ h).symm
    subst hs1
    exact ⟨hc, le_rfl, by omega, by omega⟩

theorem ensureStates_some {s0 : State} {states : List State} {time : Nat}
    (hc : CacheChain s0 states) (h2 : time + 1 ≤ states.length) :
    ∃ states1, ensureStates states time = some states1 ∧ CacheChain s0 states1 ∧
      states.length ≤ states1.length ∧ time + 2 ≤ states1.length := by
  unfold ensureStates
  by_cases hlen : states.length ≤ 1 + time
  · rw [if_pos hlen]
    cases hlast : states.getLast? with
    | none =>
      rw [List.getLast?_eq_none_iff] at hlast
      subst hlast
      simp at h2
    | some last =>
      refine ⟨states ++ [last.next], rfl, cacheChain_append hc hlast, by simp, ?_⟩
      simp
      omega
  · rw [if_neg hlen]
    exact ⟨states, rfl, hc, le_rfl, by omega⟩

/-- Successful runs of the successors closure: the cache stays a gapless
iterate prefix, only grows, covers `time + 1`, and the returned edge list is
exactly the neighbor list of the slice for `time + 1`, each paired with the
next tick and edge cost 1. -/
theorem astarSuccessors_some_inv {s0 : State} {states states1 : List State}
    {p : Point} {time : Nat} {l : List ((Point × Nat) × Nat)}
    (hc : CacheChain s0 states)
    (h : astarSuccessors states p time = some (l, states1)) :
    CacheChain s0 states1 ∧ states.length ≤ states1.length ∧
      time + 2 ≤ states1.length ∧
      l = (neighbors (State.next^[time + 1] s0) p).map (fun n => ((n, time + 1), 1)) := by
  unfold astarSuccessors at h
  cases hens : ensureStates states time with
  | none => rw [hens] at h; cases h
  | some statesm =>
    rw [hens] at h
    dsimp only at h
    obtain ⟨hcm, hlenm, -, -⟩ := ensureStates_some_inv hc hens
    cases hget : statesm.get? (time + 1) with
    | none => rw [hget] at h; cases h
    | some st =>
      rw [hget] at h
      dsimp only at h
      have hcover : time + 2 ≤ statesm.length := by
        by_contra hcon
        rw [List.get?_eq_none.mpr (by omega)] at hget
        cases hget
      have hst : st = State.next^[time + 1] s0 := cacheChain_get hcm hget
      have hl : l = (neighbors st p).map (fun n => ((n, time + 1), 1)) ∧ states1 = statesm := by
        have := Option.some_injective _ h
        exact ⟨congrArg Prod.fst this.symm, congrArg Prod.snd this.symm⟩
      obtain ⟨hl1, hl2⟩ := hl
      subst hl2
      exact ⟨hcm, hlenm, hcover, by rw [hl1, hst]⟩

theorem astarSuccessors_some {s0 : State} {states : List State} {p : Point} {time : Nat}
    (hc : CacheChain s0 states) (h2 : time + 1 ≤ states.length) :
    ∃ states1, astarSuccessors states p time =
        some ((neighbors (State.next^[time + 1] s0) p).map (fun n => ((n, time + 1), 1)),
          states1) ∧
      CacheChain s0 states1 ∧ states.length ≤ states1.length ∧
      time + 2 ≤ states1.length := by
  obtain ⟨states1, hens, hc1, hlen1, hcov⟩ := ensureStates_some hc h2
  have hget : states1.get? (time + 1) = some (State.next^[time + 1] s0) :=
    hc1 (time + 1) (by omega)
  refine ⟨states1, ?_, hc1, hlen1, hcov⟩
  unfold astarSuccessors
  rw [hens]
  dsimp only
  rw [hget]

/-! ### Priority-queue lemmas -/

theorem popMin_none {l : List Entry} (h : popMin l = none) : l = [] := by
  cases l with
  | nil => rfl
  | cons a rest =>
    unfold popMin at h
    cases hr : popMin rest with
    | none => rw [hr] at h; cases h
    | some br =>
      obtain ⟨b, rest1⟩ := br
      rw [hr] at h
      dsimp only at h
      by_cases hc : b.f < a.f ∨ (b.f = a.f ∧ a.g < b.g)
      · rw [if_pos hc] at h; cases h
      · rw [if_neg hc] at h; cases h

theorem popMin_perm {l : List Entry} {e : Entry} {rest : List Entry}
    (h : popMin l = some (e, rest)) : l.Perm (e :: rest) := by
  induction l generalizing e rest with
  | nil => cases h
  | cons a l ih =>
    unfold popMin at h
    cases hr : popMin l with
    | none =>
      rw [hr] at h
      have hl : l = [] := popMin_none hr
      subst hl
      cases h
      exact List.Perm.refl _
    | some br =>
      obtain ⟨b, rest1⟩ := br
      rw [hr] at h
      dsimp only at h
      by_cases hc : b.f < a.f ∨ (b.f = a.f ∧ a.g < b.g)
      · rw [if_pos hc] at h
        cases h
        exact (List.Perm.cons a (ih hr)).trans (List.Perm.swap _ _ _)
      · rw [if_neg hc] at h
        cases h
        exact List.Perm.refl _

theorem popMin_min {l : List Entry} {e : Entry} {rest : List Entry}
    (h : popMin l = some (e, rest)) : ∀ x ∈ l, e.f ≤ x.f := by
  induction l generalizing e rest with
  | nil => cases h
  | cons a l ih =>
    unfold popMin at h
    cases hr : popMin l with
    | none =>
      rw [hr] at h
      have hl : l = [] := popMin_none hr
      subst hl
      cases h
      intro x hx
      rw [List.mem_singleton] at hx
      rw [hx]
    | some br =>
      obtain ⟨b, rest1⟩ := br
      rw [hr] at h
      dsimp only at h
      by_cases hc : b.f < a.f ∨ (b.f = a.f ∧ a.g < b.g)
      · rw [if_pos hc] at h
        cases h
        intro x hx
        rcases List.mem_cons.mp hx with hx | hx
        · rw [hx]
          rcases hc with hc | hc
          · exact le_of_lt hc
          · exact le_of_eq hc.1
        · exact ih hr x hx
      · rw [if_neg hc] at h
        cases h
        intro x hx
        rcases List.mem_cons.mp hx with hx | hx
        · rw [hx]
        · push_neg at hc
          exact le_trans hc.1 (ih hr x hx)

/-! ### Termination measure for the search loop -/

def mu (kstar : Nat) (toSee : List Entry) : Nat :=
  (toSee.map (fun e => 6 ^ (kstar + 1 - e.g))).sum

theorem mu_perm {kstar : Nat} {l l2 : List Entry} (h : l.Perm l2) :
    mu kstar l = mu kstar l2 :=
  (h.map _).sum_eq

theorem mu_append (kstar : Nat) (l l2 : List Entry) :
    mu kstar (l ++ l2) = mu kstar l + mu kstar l2 := by
  simp [mu]

theorem mu_cons (kstar : Nat) (e : Entry) (l : List Entry) :
    mu kstar (e :: l) = 6 ^ (kstar + 1 - e.g) + mu kstar l := by
  simp [mu]

theorem sum_map_le_length_mul {α : Type} (l : List α) (f : α → Nat) (c : Nat)
    (h : ∀ a ∈ l, f a ≤ c) : (l.map f).sum ≤ l.length * c := by
  induction l with
  | nil => simp
  | cons a l ih =>
    simp only [List.map_cons, List.sum_cons, List.length_cons, Nat.succ_mul]
    have h1 := h a (List.mem_cons_self a l)
    have h2 := ih (fun x hx => h x (List.mem_cons_of_mem a hx))
    omega

/-- Expanding the best entry strictly shrinks the measure: one term
`6 ^ (kstar + 1 - g)` is replaced by at most five terms `6 ^ (kstar - g)`. -/
theorem mu_decrease (kstar : Nat) (goal : Point) (e : Entry) (rest : List Entry)
    (ns : List Point) (t1 : Nat) (hns : ns.length ≤ 5) (hg : e.g ≤ kstar) :
    mu kstar (rest ++ ns.map (fun n =>
      ({ f := e.g + 1 + heuristic goal n, g := e.g + 1, node := (n, t1) } : Entry))) <
      mu kstar (e :: rest) := by
  rw [mu_append, mu_cons]
  have hle : mu kstar (ns.map (fun n =>
      ({ f := e.g + 1 + heuristic goal n, g := e.g + 1, node := (n, t1) } : Entry))) ≤
      ns.length * 6 ^ (kstar - e.g) := by
    unfold mu
    rw [List.map_map]
    refine le_trans (sum_map_le_length_mul _ _ (6 ^ (kstar - e.g)) ?_) ?_
    · intro a _
      have : kstar + 1 - (e.g + 1) = kstar - e.g := by omega
      simp [Function.comp, this]
    · simp
  have hpow : ns.length * 6 ^ (kstar - e.g) < 6 ^ (kstar + 1 - e.g) := by
    have h6 : kstar + 1 - e.g = (kstar - e.g) + 1 := by omega
    rw [h6, pow_succ]
    have hp : 0 < 6 ^ (kstar - e.g) := Nat.pos_pow_of_pos _ (by omega)
    calc ns.length * 6 ^ (kstar - e.g) ≤ 5 * 6 ^ (kstar - e.g) :=
          Nat.mul_le_mul_right _ hns
      _ < 6 ^ (kstar - e.g) * 6 := by omega
  omega

/-! ### Search-loop invariants -/

/-- Invariant of every queue entry: its node is reachable from the departure
state, its tick is the departure tick plus its cost, its estimate dominates
its cost, and its tick is covered by the cache. -/
def EntryOk (s0 : State) (start : Point) (t0 : Nat) (len : Nat) (e : Entry) : Prop :=
  ReachF s0 start t0 e.node.1 e.node.2 ∧ e.node.2 = t0 + e.g ∧ e.g ≤ e.f ∧
    e.node.2 + 1 ≤ len

theorem EntryOk.mono {s0 : State} {start : Point} {t0 len len2 : Nat} {e : Entry}
    (hl : len ≤ len2) (h : EntryOk s0 start t0 len e) : EntryOk s0 start t0 len2 e :=
  ⟨h.1, h.2.1, h.2.2.1, le_trans h.2.2.2 hl⟩

/-- Invariant that makes the search complete and optimal: some queue entry
lies on a path to the goal of total cost at most `kstar`, and its estimate is
bounded by that total cost. -/
def WitnessOk (s0 : State) (goal : Point) (kstar : Nat) (toSee : List Entry) : Prop :=
  ∃ e ∈ toSee, ∃ m, ReachF s0 e.node.1 e.node.2 goal (e.node.2 + m) ∧
    e.g + m ≤ kstar ∧ e.f ≤ e.g + m

theorem astarLoop_succ (goal : Point) (fuel : Nat) (toSee : List Entry)
    (states : List State) :
    astarLoop goal (fuel + 1) toSee states =
      match popMin toSee with
      | none => SearchOutcome.noPath states
      | some (e, rest) =>
        if e.node.1 = goal then SearchOutcome.found e.g states
        else
          match astarSuccessors states e.node.1 e.node.2 with
          | none => SearchOutcome.cachePanic
          | some (succ, states1) =>
            astarLoop goal fuel
              (rest ++ succ.map (fun sc =>
                { f := e.g + sc.2 + heuristic goal sc.1.1
                  g := e.g + sc.2
                  node := sc.1 }))
              states1 := rfl

/-- Master lemma about the modelled `astar` loop: under the invariants it
never panics, never reports `noPath`, any returned cost is exactly the least
total cost `kstar`, and with enough fuel it does return. -/
theorem astarLoop_correct (s0 : State) (start goal : Point) (t0 kstar : Nat)
    (hk : IsLeast {m | ReachF s0 start t0 goal (t0 + m)} kstar) :
    ∀ fuel toSee states, CacheChain s0 states →
      (∀ e ∈ toSee, EntryOk s0 start t0 states.length e) →
      WitnessOk s0 goal kstar toSee →
      (astarLoop goal fuel toSee states ≠ SearchOutcome.cachePanic ∧
       (∀ st, astarLoop goal fuel toSee states ≠ SearchOutcome.noPath st) ∧
       (∀ g st, astarLoop goal fuel toSee states = SearchOutcome.found g st →
          g = kstar ∧ CacheChain s0 st ∧ states.length ≤ st.length ∧
          t0 + kstar + 1 ≤ st.length) ∧
       (mu kstar toSee < fuel →
          ∃ st, astarLoop goal fuel toSee states = SearchOutcome.found kstar st)) := by
  intro fuel
  induction fuel with
  | zero =>
    intro toSee states _ _ _
    refine ⟨by simp [astarLoop], fun st => by simp [astarLoop], fun g st h => ?_,
      fun hmu => absurd hmu (Nat.not_lt_zero _)⟩
    simp [astarLoop] at h
  | succ fuel ih =>
    intro toSee states hchain hentries hwit
    obtain ⟨ew, hew, m, hrw, hgm, hfm⟩ := hwit
    cases hpop : popMin toSee with
    | none =>
      rw [popMin_none hpop] at hew
      exact absurd hew (List.not_mem_nil _)
    | some er =>
      obtain ⟨e, rest⟩ := er
      have hperm := popMin_perm hpop
      have hmin := popMin_min hpop
      have heMem : e ∈ toSee := hperm.mem_iff.mpr (List.mem_cons_self _ _)
      obtain ⟨heR, heT, heGF, heLen⟩ := hentries e heMem
      have hgK : e.g ≤ kstar :=
        le_trans heGF (le_trans (hmin ew hew) (le_trans hfm hgm))
      by_cases hgoal : e.node.1 = goal
      · have hres : astarLoop goal (fuel + 1) toSee states =
            SearchOutcome.found e.g states := by
          rw [astarLoop_succ, hpop]
          dsimp only
          rw [if_pos hgoal]
        have hkeq : e.g = kstar := by
          have h1 : kstar ≤ e.g := by
            refine hk.2 ?_
            rw [hgoal, heT] at heR
            exact heR
          omega
        refine ⟨by rw [hres]; simp, fun st => by rw [hres]; simp, ?_, ?_⟩
        · intro g st hf
          rw [hres] at hf
          cases hf
          exact ⟨hkeq, hchain, le_rfl, by omega⟩
        · intro _
          exact ⟨states, by rw [hres, hkeq]⟩
      · obtain ⟨states1, hsucc, hchain1, hlen1, hcov1⟩ :=
          astarSuccessors_some (p := e.node.1) hchain heLen
        set ns := neighbors (State.next^[e.node.2 + 1] s0) e.node.1 with hns
        set newE := ns.map (fun n =>
          ({ f := e.g + 1 + heuristic goal n, g := e.g + 1,
             node := (n, e.node.2 + 1) } : Entry)) with hnewE
        have hres : astarLoop goal (fuel + 1) toSee states =
            astarLoop goal fuel (rest ++ newE) states1 := by
          rw [astarLoop_succ, hpop]
          dsimp only
          rw [if_neg hgoal, hsucc]
          dsimp only
          rw [List.map_map]
          rfl
        have hentries1 : ∀ x ∈ rest ++ newE, EntryOk s0 start t0 states1.length x := by
          intro x hx
          rcases List.mem_append.mp hx with hx | hx
          · exact EntryOk.mono hlen1
              (hentries x (hperm.mem_iff.mpr (List.mem_cons_of_mem _ hx)))
          · obtain ⟨n, hn, rfl⟩ := List.mem_map.mp hx
            exact ⟨ReachF.step heR hn, by dsimp only; omega, by dsimp only; omega,
              by dsimp only; omega⟩
        have hwit1 : WitnessOk s0 goal kstar (rest ++ newE) := by
          rcases List.mem_cons.mp (hperm.mem_iff.mp hew) with hexw | hexw
          · subst hexw
            have hm1 : 1 ≤ m := by
              by_contra hm0
              have hm0e : m = 0 := by omega
              subst hm0e
              exact hgoal (ReachF.eq_of_tick_eq hrw).symm
            obtain ⟨p2, hp2, hr2⟩ := hrw.first_step (by omega)
            refine ⟨Entry.mk (ew.g + 1 + heuristic goal p2) (ew.g + 1)
                (p2, ew.node.2 + 1), ?_, m - 1, ?_, ?_, ?_⟩
            · exact List.mem_append_right _ (List.mem_map.mpr ⟨p2, hp2, rfl⟩)
            · have heq : ew.node.2 + m = (ew.node.2 + 1) + (m - 1) := by omega
              dsimp only
              rw [← heq]
              exact hr2
            · dsimp only
              omega
            · have hh := heuristic_le_of_reachF hr2
              dsimp only
              omega
          · exact ⟨ew, List.mem_append_left _ hexw, m, hrw, hgm, hfm⟩
        obtain ⟨ihp, ihn, ihf, ihc⟩ := ih (rest ++ newE) states1 hchain1 hentries1 hwit1
        refine ⟨by rw [hres]; exact ihp, fun st => by rw [hres]; exact ihn st, ?_, ?_⟩
        · intro g st hf
          rw [hres] at hf
          obtain ⟨h1, h2, h3, h4⟩ := ihf g st hf
          exact ⟨h1, h2, le_trans hlen1 h3, h4⟩
        · intro hmu
          have hdec : mu kstar (rest ++ newE) < mu kstar toSee := by
            rw [mu_perm hperm]
            exact mu_decrease kstar goal e rest ns (e.node.2 + 1)
              (neighbors_length_le _ _) hgK
          obtain ⟨st, hst⟩ := ihc (by omega)
          exact ⟨st, by rw [hres]; exact hst⟩

/-! ### Top-level search characterization -/

theorem exists_isLeast_reach (s0 : State) (start goal : Point) (t0 : Nat)
    (hpath : ∃ t, ReachF s0 start t0 goal t) :
    ∃ kstar, IsLeast {m | ReachF s0 start t0 goal (t0 + m)} kstar := by
  classical
  obtain ⟨t, ht⟩ := hpath
  have hex : ∃ m, ReachF s0 start t0 goal (t0 + m) := by
    refine ⟨t - t0, ?_⟩
    have hle := ht.le_tick
    have heq : t0 + (t - t0) = t := by omega
    rw [heq]
    exact ht
  exact ⟨Nat.find hex, Nat.find_spec hex, fun m hm => Nat.find_min' hex hm⟩

theorem astarLoop_fuel_mono {goal : Point} :
    ∀ {fuel fuel2 : Nat} {toSee : List Entry} {states : List State} {g : Nat}
      {st : List State}, fuel ≤ fuel2 →
      astarLoop goal fuel toSee states = SearchOutcome.found g st →
      astarLoop goal fuel2 toSee states = SearchOutcome.found g st := by
  intro fuel
  induction fuel with
  | zero =>
    intro fuel2 toSee states g st _ h
    simp [astarLoop] at h
  | succ fuel ih =>
    intro fuel2 toSee states g st hle h
    cases fuel2 with
    | zero => omega
    | succ fuel2 =>
      rw [astarLoop_succ] at h ⊢
      cases hpop : popMin toSee with
      | none =>
        rw [hpop] at h
        dsimp only at h
        cases h
      | some er =>
        obtain ⟨e, rest⟩ := er
        rw [hpop] at h
        dsimp only at h ⊢
        by_cases hgoal : e.node.1 = goal
        · rw [if_pos hgoal] at h ⊢; exact h
        · rw [if_neg hgoal] at h ⊢
          cases hsucc : astarSuccessors states e.node.1 e.node.2 with
          | none =>
            rw [hsucc] at h
            dsimp only at h
            cases h
          | some pr =>
            obtain ⟨succ, states1⟩ := pr
            rw [hsucc] at h
            dsimp only at h ⊢
            exact ih (by omega) h

theorem arrival_time_fuel_mono {start goal : Point} {t0 : Nat} {states : List State}
    {fuel fuel2 v : Nat} {st : List State} (hle : fuel ≤ fuel2)
    (h : arrival_time start goal t0 states fuel = SearchOutcome.found v st) :
    arrival_time start goal t0 states fuel2 = SearchOutcome.found v st := by
  unfold arrival_time at h ⊢
  cases hout : astarLoop goal fuel [Entry.mk 0 0 (start, t0)] states with
  | found d st1 =>
    rw [hout] at h
    dsimp only at h
    rw [astarLoop_fuel_mono hle hout]
    dsimp only
    exact h
  | noPath st1 => rw [hout] at h; dsimp only at h; cases h
  | cachePanic => rw [hout] at h; dsimp only at h; cases h
  | timeout => rw [hout] at h; dsimp only at h; cases h

/-- Central characterization of `arrival_time`: with a gapless iterate cache
covering the departure tick and a path to the goal, the search cannot panic
or report "no path found", every returned value is exactly the least arrival
tick `t0 + kstar`, and enough fuel makes it return. -/
theorem arrival_time_spec (s0 : State) (start goal : Point) (t0 : Nat)
    (states : List State) (kstar : Nat)
    (hk : IsLeast {m | ReachF s0 start t0 goal (t0 + m)} kstar)
    (hchain : CacheChain s0 states) (hlen : t0 + 1 ≤ states.length) :
    (∀ fuel,
      arrival_time start goal t0 states fuel ≠ SearchOutcome.cachePanic ∧
      (∀ st, arrival_time start goal t0 states fuel ≠ SearchOutcome.noPath st) ∧
      (∀ v st, arrival_time start goal t0 states fuel = SearchOutcome.found v st →
        v = t0 + kstar ∧ CacheChain s0 st ∧ states.length ≤ st.length ∧
        t0 + kstar + 1 ≤ st.length)) ∧
    (∃ fuel st, arrival_time start goal t0 states fuel =
        SearchOutcome.found (t0 + kstar) st ∧ CacheChain s0 st ∧
        states.length ≤ st.length ∧ t0 + kstar + 1 ≤ st.length) := by
  have hE : ∀ e ∈ [Entry.mk 0 0 (start, t0)], EntryOk s0 start t0 states.length e := by
    intro e he
    rw [List.mem_singleton] at he
    subst he
    exact ⟨ReachF.refl, rfl, le_rfl, hlen⟩
  have hW : WitnessOk s0 goal kstar [Entry.mk 0 0 (start, t0)] := by
    refine ⟨Entry.mk 0 0 (start, t0), List.mem_singleton_self _, kstar, ?_, ?_, ?_⟩
    · exact hk.1
    · dsimp only
      omega
    · dsimp only
      omega
  have hmain := astarLoop_correct s0 start goal t0 kstar hk
  constructor
  · intro fuel
    obtain ⟨hp, hn, hf, -⟩ := hmain fuel [Entry.mk 0 0 (start, t0)] states hchain hE hW
    unfold arrival_time
    cases hout : astarLoop goal fuel [Entry.mk 0 0 (start, t0)] states with
    | found d st1 =>
      dsimp only
      obtain ⟨hd, hc1, hl1, hcov⟩ := hf d st1 hout
      subst hd
      refine ⟨by simp, fun st => by simp, ?_⟩
      intro v st hv
      cases hv
      exact ⟨rfl, hc1, hl1, hcov⟩
    | noPath st1 =>
      dsimp only
      exact absurd hout (hn st1)
    | cachePanic => exact absurd hout hp
    | timeout =>
      dsimp only
      exact ⟨by simp, fun st => by simp, fun v st hv => by cases hv⟩
  · obtain ⟨-, -, hf, hc⟩ :=
      hmain (mu kstar [Entry.mk 0 0 (start, t0)] + 1) [Entry.mk 0 0 (start, t0)]
        states hchain hE hW
    obtain ⟨st, hst⟩ := hc (by omega)
    obtain ⟨-, hc1, hl1, hcov⟩ := hf kstar st hst
    refine ⟨mu kstar [Entry.mk 0 0 (start, t0)] + 1, st, ?_, hc1, hl1, hcov⟩
    unfold arrival_time
    rw [hst]

/-! ### BFS correctness -/

theorem bfsLoop_succ (s0 : State) (goal : Point) (fuel : Nat) (frontier : List Point)
    (t : Nat) :
    bfsLoop s0 goal (fuel + 1) frontier t =
      if goal ∈ frontier then some t
      else
        bfsLoop s0 goal fuel
          ((frontier.flatMap (fun p => neighbors (State.next^[t + 1] s0) p)).dedup)
          (t + 1) := rfl

theorem bfsLoop_correct (s0 : State) (start goal : Point) (t0 kstar : Nat)
    (hk : IsLeast {m | ReachF s0 start t0 goal (t0 + m)} kstar) :
    ∀ d k, k + d = kstar →
      bfsLoop s0 goal (d + 1) (reachSet s0 start t0 k) (t0 + k) =
        some (t0 + kstar) := by
  intro d
  induction d with
  | zero =>
    intro k hk0
    have hke : k = kstar := by omega
    rw [hke]
    have hmem : goal ∈ reachSet s0 start t0 kstar := mem_reachSet_iff.mpr hk.1
    rw [bfsLoop_succ, if_pos hmem]
  | succ d ih =>
    intro k hk0
    have hnot : goal ∉ reachSet s0 start t0 k := by
      intro hmem
      have := hk.2 (mem_reachSet_iff.mp hmem)
      omega
    rw [bfsLoop_succ, if_neg hnot]
    exact ih (k + 1) (by omega)

theorem bfsArrival_eq (s0 : State) (start goal : Point) (t0 kstar : Nat)
    (hk : IsLeast {m | ReachF s0 start t0 goal (t0 + m)} kstar) :
    bfsArrival s0 start goal t0 (kstar + 1) = some (t0 + kstar) := by
  have h := bfsLoop_correct s0 start goal t0 kstar hk kstar 0 (by omega)
  exact h

/-! ### Neighbor characterization -/

theorem mem_neighbors_iff {st : State} {p q : Point} :
    q ∈ neighbors st p ↔
      (q ∈ [(p.1, p.2), (p.1 - 1, p.2), (p.1 + 1, p.2), (p.1, p.2 - 1), (p.1, p.2 + 1)] ∧
        (q = st.start ∨ q = st.«end» ∨
          (0 ≤ q.1 ∧ q.1 < st.dimensions.1 ∧ 0 ≤ q.2 ∧ q.2 < st.dimensions.2 ∧
            q ∉ st.obstacles))) := by
  unfold neighbors
  rw [List.mem_filter]
  simp only [decide_eq_true_eq]
  constructor
  · rintro ⟨hmem, hcond⟩
    obtain ⟨d, hd, rfl⟩ := List.mem_map.mp hmem
    refine ⟨?_, hcond⟩
    fin_cases hd <;> simp [sub_eq_add_neg]
  · rintro ⟨hmem, hcond⟩
    refine ⟨?_, hcond⟩
    rw [List.mem_map]
    simp only [List.mem_cons, List.not_mem_nil, or_false] at hmem
    rcases hmem with rfl | rfl | rfl | rfl | rfl
    · exact ⟨(0, 0), by simp, by simp⟩
    · exact ⟨(-1, 0), by simp, by simp [sub_eq_add_neg]⟩
    · exact ⟨(1, 0), by simp, by simp⟩
    · exact ⟨(0, -1), by simp, by simp [sub_eq_add_neg]⟩
    · exact ⟨(0, 1), by simp, by simp⟩

/-! ### Blizzard stepping lemmas -/

/-- Unit vector of a heading, in (row, col) form. -/
def dirVec : Direction → Int × Int
  | Direction.Right => (0, 1)
  | Direction.Down => (1, 0)
  | Direction.Left => (0, -1)
  | Direction.Up => (-1, 0)

/-- The dimension of the axis a heading moves along. -/
def axisDim (s : State) : Direction → Int
  | Direction.Right => s.dimensions.2
  | Direction.Left => s.dimensions.2
  | Direction.Down => s.dimensions.1
  | Direction.Up => s.dimensions.1

theorem inInterior_congr {s s2 : State} (h : s.dimensions = s2.dimensions) (p : Point) :
    InInterior s p ↔ InInterior s2 p := by
  unfold InInterior
  rw [h]

theorem move_blizzard_interior {s : State} {b : Blizzard} (hb : InInterior s b.1) :
    InInterior s (s.move_blizzard b).1 := by
  obtain ⟨⟨r, c⟩, d⟩ := b
  obtain ⟨h1, h2, h3, h4⟩ := hb
  cases d <;> unfold State.move_blizzard <;> dsimp only at h1 h2 h3 h4 ⊢ <;>
    split_ifs with h <;>
    exact ⟨by dsimp only; omega, by dsimp only; omega, by dsimp only; omega,
      by dsimp only; omega⟩

/-- One blizzard step is exactly "add the unit vector and reduce both
coordinates modulo the interior dimensions". -/
theorem move_blizzard_emod (s : State) (p : Point) (d : Direction)
    (hp : InInterior s p) :
    s.move_blizzard (p, d) =
      (((p.1 + (dirVec d).1) % s.dimensions.1,
        (p.2 + (dirVec d).2) % s.dimensions.2), d) := by
  obtain ⟨h1, h2, h3, h4⟩ := hp
  have hH : 0 < s.dimensions.1 := by omega
  have hW : 0 < s.dimensions.2 := by omega
  have erow : p.1 % s.dimensions.1 = p.1 := Int.emod_eq_of_lt h1 h2
  have ecol : p.2 % s.dimensions.2 = p.2 := Int.emod_eq_of_lt h3 h4
  cases d <;> unfold State.move_blizzard dirVec <;> dsimp only <;> split_ifs with h
  · rw [h]
    have hc : s.dimensions.2 - 1 + 1 = s.dimensions.2 := by ring
    rw [hc, Int.emod_self, add_zero, erow]
  · have e2 : (p.2 + 1) % s.dimensions.2 = p.2 + 1 :=
      Int.emod_eq_of_lt (by omega) (by omega)
    rw [add_zero, erow, e2]
  · rw [h]
    have hc : s.dimensions.1 - 1 + 1 = s.dimensions.1 := by ring
    rw [hc, Int.emod_self, add_zero, ecol]
  · have e2 : (p.1 + 1) % s.dimensions.1 = p.1 + 1 :=
      Int.emod_eq_of_lt (by omega) (by omega)
    rw [add_zero, ecol, e2]
  · rw [h]
    have hc : (0 : Int) + -1 = s.dimensions.2 - 1 + s.dimensions.2 * (-1) := by ring
    have e2 : (s.dimensions.2 - 1) % s.dimensions.2 = s.dimensions.2 - 1 :=
      Int.emod_eq_of_lt (by omega) (by omega)
    rw [hc, Int.add_mul_emod_self_left, add_zero, erow, e2]
  · have hc : p.2 + -1 = p.2 - 1 := by ring
    have e2 : (p.2 - 1) % s.dimensions.2 = p.2 - 1 :=
      Int.emod_eq_of_lt (by omega) (by omega)
    rw [hc, add_zero, erow, e2]
  · rw [h]
    have hc : (0 : Int) + -1 = s.dimensions.1 - 1 + s.dimensions.1 * (-1) := by ring
    have e2 : (s.dimensions.1 - 1) % s.dimensions.1 = s.dimensions.1 - 1 :=
      Int.emod_eq_of_lt (by omega) (by omega)
    rw [hc, Int.add_mul_emod_self_left, add_zero, ecol, e2]
  · have hc : p.1 + -1 = p.1 - 1 := by ring
    have e2 : (p.1 - 1) % s.dimensions.1 = p.1 - 1 :=
      Int.emod_eq_of_lt (by omega) (by omega)
    rw [hc, add_zero, ecol, e2]

theorem move_blizzard_iterate (s : State) (p : Point) (d : Direction)
    (hp : InInterior s p) (n : Nat) :
    (s.move_blizzard)^[n] (p, d) =
      (((p.1 + (n : Int) * (dirVec d).1) % s.dimensions.1,
        (p.2 + (n : Int) * (dirVec d).2) % s.dimensions.2), d) := by
  obtain ⟨h1, h2, h3, h4⟩ := hp
  have hH : 0 < s.dimensions.1 := by omega
  have hW : 0 < s.dimensions.2 := by omega
  induction n with
  | zero =>
    simp [Int.emod_eq_of_lt h1 h2, Int.emod_eq_of_lt h3 h4]
  | succ n ih =>
    rw [Function.iterate_succ_apply', ih]
    have hint : InInterior s ((p.1 + (n : Int) * (dirVec d).1) % s.dimensions.1,
        (p.2 + (n : Int) * (dirVec d).2) % s.dimensions.2) := by
      refine ⟨?_, ?_, ?_, ?_⟩ <;> dsimp only
      · exact Int.emod_nonneg _ (by omega)
      · exact Int.emod_lt_of_pos _ hH
      · exact Int.emod_nonneg _ (by omega)
      · exact Int.emod_lt_of_pos _ hW
    rw [move_blizzard_emod s _ d hint]
    have hrow : ((p.1 + (n : Int) * (dirVec d).1) % s.dimensions.1 + (dirVec d).1) %
        s.dimensions.1 = (p.1 + ((n + 1 : Nat) : Int) * (dirVec d).1) % s.dimensions.1 := by
      rw [Int.emod_add_emod]
      congr 1
      push_cast
      ring
    have hcol : ((p.2 + (n : Int) * (dirVec d).2) % s.dimensions.2 + (dirVec d).2) %
        s.dimensions.2 = (p.2 + ((n + 1 : Nat) : Int) * (dirVec d).2) % s.dimensions.2 := by
      rw [Int.emod_add_emod]
      congr 1
      push_cast
      ring
    rw [hrow, hcol]

/-- Stepping a blizzard `dim` times along its axis of motion brings it back
to its starting cell with an unchanged heading. -/
theorem move_blizzard_cycle (s : State) (p : Point) (d : Direction)
    (hp : InInterior s p) :
    (s.move_blizzard)^[(axisDim s d).toNat] (p, d) = (p, d) := by
  obtain ⟨h1, h2, h3, h4⟩ := hp
  have hH : 0 < s.dimensions.1 := by omega
  have hW : 0 < s.dimensions.2 := by omega
  rw [move_blizzard_iterate s p d ⟨h1, h2, h3, h4⟩]
  cases d <;> unfold axisDim dirVec <;> dsimp only
  · have hcast : ((s.dimensions.2.toNat : Int)) = s.dimensions.2 :=
      Int.toNat_of_nonneg (by omega)
    have hrow : p.1 + (s.dimensions.2.toNat : Int) * 0 = p.1 := by ring
    have hcol : p.2 + (s.dimensions.2.toNat : Int) * 1 =
        p.2 + s.dimensions.2 * 1 := by rw [hcast]
    rw [hrow, hcol, Int.add_mul_emod_self_left, Int.emod_eq_of_lt h1 h2,
      Int.emod_eq_of_lt h3 h4]
  · have hcast : ((s.dimensions.1.toNat : Int)) = s.dimensions.1 :=
      Int.toNat_of_nonneg (by omega)
    have hrow : p.1 + (s.dimensions.1.toNat : Int) * 1 =
        p.1 + s.dimensions.1 * 1 := by rw [hcast]
    have hcol : p.2 + (s.dimensions.1.toNat : Int) * 0 = p.2 := by ring
    rw [hrow, hcol, Int.add_mul_emod_self_left, Int.emod_eq_of_lt h1 h2,
      Int.emod_eq_of_lt h3 h4]
  · have hcast : ((s.dimensions.2.toNat : Int)) = s.dimensions.2 :=
      Int.toNat_of_nonneg (by omega)
    have hrow : p.1 + (s.dimensions.2.toNat : Int) * 0 = p.1 := by ring
    have hcol : p.2 + (s.dimensions.2.toNat : Int) * (-1) =
        p.2 + s.dimensions.2 * (-1) := by rw [hcast]
    rw [hrow, hcol, Int.add_mul_emod_self_left, Int.emod_eq_of_lt h1 h2,
      Int.emod_eq_of_lt h3 h4]
  · have hcast : ((s.dimensions.1.toNat : Int)) = s.dimensions.1 :=
      Int.toNat_of_nonneg (by omega)
    have hrow : p.1 + (s.dimensions.1.toNat : Int) * (-1) =
        p.1 + s.dimensions.1 * (-1) := by rw [hcast]
    have hcol : p.2 + (s.dimensions.1.toNat : Int) * 0 = p.2 := by ring
    rw [hrow, hcol, Int.add_mul_emod_self_left, Int.emod_eq_of_lt h1 h2,
      Int.emod_eq_of_lt h3 h4]

/-! ### Obstacles stay inside the interior -/

theorem iterate_blizzards_interior (s : State)
    (hb : ∀ b ∈ s.blizzards, InInterior s b.1) (t : Nat) :
    ∀ b ∈ (State.next^[t] s).blizzards, InInterior s b.1 := by
  induction t with
  | zero => exact hb
  | succ t ih =>
    intro b hbmem
    rw [Function.iterate_succ_apply'] at hbmem
    unfold State.next at hbmem
    dsimp only at hbmem
    obtain ⟨b0, hb0, rfl⟩ := List.mem_map.mp hbmem
    have hint : InInterior (State.next^[t] s) b0.1 :=
      (inInterior_congr (iterate_dimensions s t) b0.1).mpr (ih b0 hb0)
    have := move_blizzard_interior hint
    exact (inInterior_congr (iterate_dimensions s t) _).mp this

theorem iterate_obstacles_interior (s : State)
    (hb : ∀ b ∈ s.blizzards, InInterior s b.1)
    (ho : ∀ p ∈ s.obstacles, InInterior s p) (t : Nat) :
    ∀ p ∈ (State.next^[t] s).obstacles, InInterior s p := by
  cases t with
  | zero => exact ho
  | succ t =>
    intro p hpmem
    rw [Function.iterate_succ_apply'] at hpmem
    unfold State.next at hpmem
    dsimp only at hpmem
    rw [List.map_map] at hpmem
    obtain ⟨b0, hb0, rfl⟩ := List.mem_map.mp hpmem
    have hint : InInterior (State.next^[t] s) b0.1 :=
      (inInterior_congr (iterate_dimensions s t) b0.1).mpr
        (iterate_blizzards_interior s hb t b0 hb0)
    have := move_blizzard_interior hint
    exact (inInterior_congr (iterate_dimensions s t) _).mp this

/-! ### Concrete valleys used to exercise the theorems -/

/-- A 1 x 1 valley with no blizzards; start above and end below the single
interior cell. -/
def exState : State :=
  { obstacles := []
    blizzards := []
    dimensions := (1, 1)
    start := (-1, 0)
    «end» := (1, 0) }

/-- A 2 x 3 valley with one rightward blizzard. -/
def exState2 : State :=
  { obstacles := [((0 : Int), (0 : Int))]
    blizzards := [(((0 : Int), (0 : Int)), Direction.Right)]
    dimensions := (2, 3)
    start := (-1, 0)
    «end» := (2, 2) }

theorem exState_next : exState.next = exState := rfl

theorem exState_iterate (n : Nat) : State.next^[n] exState = exState :=
  Function.iterate_fixed exState_next n

theorem exState_reach (t : Nat) : ReachF exState (-1, 0) t (1, 0) (t + 2) := by
  have h1 : ((0 : Int), (0 : Int)) ∈ neighbors (State.next^[t + 1] exState) (-1, 0) := by
    rw [exState_iterate]
    decide
  have h2 : ((1 : Int), (0 : Int)) ∈ neighbors (State.next^[t + 2] exState) (0, 0) := by
    rw [exState_iterate]
    decide
  exact ReachF.step (ReachF.step ReachF.refl h1) h2

theorem exState_reach_rev (t : Nat) : ReachF exState (1, 0) t (-1, 0) (t + 2) := by
  have h1 : ((0 : Int), (0 : Int)) ∈ neighbors (State.next^[t + 1] exState) (1, 0) := by
    rw [exState_iterate]
    decide
  have h2 : ((-1 : Int), (0 : Int)) ∈ neighbors (State.next^[t + 2] exState) (0, 0) := by
    rw [exState_iterate]
    decide
  exact ReachF.step (ReachF.step ReachF.refl h1) h2

theorem exState_least1 : IsLeast {m | ReachF exState (-1, 0) 1 (1, 0) (1 + m)} 2 := by
  constructor
  · exact exState_reach 1
  · intro m hm
    by_contra hlt
    push_neg at hlt
    interval_cases m
    · exact absurd (mem_reachSet_iff.mpr hm) (by decide)
    · exact absurd (mem_reachSet_iff.mpr hm) (by decide)

/-! ### Claim theorems -/

theorem isLeast_abs {s0 : State} {start goal : Point} {t0 k : Nat}
    (hk : IsLeast {m | ReachF s0 start t0 goal (t0 + m)} k) :
    IsLeast {t | ReachF s0 start t0 goal t} (t0 + k) := by
  constructor
  · exact hk.1
  · intro t ht
    have hle := ReachF.le_tick ht
    have hmem : (t - t0) ∈ {m | ReachF s0 start t0 goal (t0 + m)} := by
      rw [Set.mem_setOf_eq, show t0 + (t - t0) = t by omega]
      exact ht
    have := hk.2 hmem
    omega

/-- C1: for a valid cache (a gapless iterate chain covering the departure
tick) and a reachable goal, `arrival_time start end t_start cache` returns
(for suitable fuel) the smallest tick `t_end ≥ t_start` at which `end` is
reachable from `(start, t_start)` via the neighbor-rule transitions. -/
theorem claim1_arrival_time_least (s0 : State) (start goal : Point) (t0 : Nat)
    (states : List State) (hchain : CacheChain s0 states)
    (hlen : t0 + 1 ≤ states.length)
    (hpath : ∃ t, ReachF s0 start t0 goal t) :
    ∃ t_end,
      IsLeast {t | t0 ≤ t ∧ ReachF s0 start t0 goal t} t_end ∧
      (∃ fuel st, arrival_time start goal t0 states fuel = SearchOutcome.found t_end st) ∧
      (∀ fuel v st, arrival_time start goal t0 states fuel = SearchOutcome.found v st →
        v = t_end) := by
  obtain ⟨kstar, hk⟩ := exists_isLeast_reach s0 start goal t0 hpath
  obtain ⟨hall, fuel, st, hfound, -, -, -⟩ :=
    arrival_time_spec s0 start goal t0 states kstar hk hchain hlen
  refine ⟨t0 + kstar, ⟨⟨by omega, hk.1⟩, ?_⟩, ⟨fuel, st, hfound⟩, ?_⟩
  · intro t ht
    exact (isLeast_abs hk).2 ht.2
  · intro fuel2 v st2 hf
    exact ((hall fuel2).2.2 v st2 hf).1

theorem claim1_witness :
    CacheChain exState [exState] ∧ 0 + 1 ≤ [exState].length ∧
    (∃ t, ReachF exState (-1, 0) 0 (1, 0) t) ∧
    (∃ t_end,
      IsLeast {t | 0 ≤ t ∧ ReachF exState (-1, 0) 0 (1, 0) t} t_end ∧
      (∃ fuel st, arrival_time (-1, 0) (1, 0) 0 [exState] fuel =
        SearchOutcome.found t_end st) ∧
      (∀ fuel v st, arrival_time (-1, 0) (1, 0) 0 [exState] fuel =
        SearchOutcome.found v st → v = t_end)) :=
  ⟨by decide, by decide, ⟨2, exState_reach 0⟩,
    claim1_arrival_time_least exState (-1, 0) (1, 0) 0 [exState] (by decide) (by decide)
      ⟨2, exState_reach 0⟩⟩

/-- C5: the heuristic (A*) search and the spec-modelled plain breadth-first
search by tick return the same arrival tick, namely the least reachable one. -/
theorem claim5_astar_eq_bfs (s0 : State) (start goal : Point) (t0 : Nat)
    (states : List State) (hchain : CacheChain s0 states)
    (hlen : t0 + 1 ≤ states.length)
    (hpath : ∃ t, ReachF s0 start t0 goal t) :
    ∃ t_end,
      IsLeast {t | t0 ≤ t ∧ ReachF s0 start t0 goal t} t_end ∧
      (∃ fuel st, arrival_time start goal t0 states fuel = SearchOutcome.found t_end st) ∧
      (∃ fuel, bfsArrival s0 start goal t0 fuel = some t_end) := by
  obtain ⟨kstar, hk⟩ := exists_isLeast_reach s0 start goal t0 hpath
  obtain ⟨-, fuel, st, hfound, -, -, -⟩ :=
    arrival_time_spec s0 start goal t0 states kstar hk hchain hlen
  refine ⟨t0 + kstar, ⟨⟨by omega, hk.1⟩, ?_⟩, ⟨fuel, st, hfound⟩,
    ⟨kstar + 1, bfsArrival_eq s0 start goal t0 kstar hk⟩⟩
  intro t ht
  exact (isLeast_abs hk).2 ht.2

theorem claim5_witness :
    CacheChain exState [exState] ∧ 0 + 1 ≤ [exState].length ∧
    (∃ t, ReachF exState (-1, 0) 0 (1, 0) t) ∧
    (∃ t_end,
      IsLeast {t | 0 ≤ t ∧ ReachF exState (-1, 0) 0 (1, 0) t} t_end ∧
      (∃ fuel st, arrival_time (-1, 0) (1, 0) 0 [exState] fuel =
        SearchOutcome.found t_end st) ∧
      (∃ fuel, bfsArrival exState (-1, 0) (1, 0) 0 fuel = some t_end)) :=
  ⟨by decide, by decide, ⟨2, exState_reach 0⟩,
    claim5_astar_eq_bfs exState (-1, 0) (1, 0) 0 [exState] (by decide) (by decide)
      ⟨2, exState_reach 0⟩⟩

/-- C7, as stated, is false: `arrival_time` returns the absolute arrival tick
`start_time + distance`, not the number of ticks elapsed since `t_start`.
With departure tick 1 in the empty 1 x 1 valley the minimum elapsed count is
2, but the function returns 3. -/
theorem claim7_counterexample :
    arrival_time (-1, 0) (1, 0) 1 [exState, exState] 4 =
      SearchOutcome.found 3 [exState, exState, exState, exState] ∧
    IsLeast {m | ReachF exState (-1, 0) 1 (1, 0) (1 + m)} 2 ∧ (3 : Nat) ≠ 2 :=
  ⟨by decide, exState_least1, by decide⟩

/-- C7 (amended): `arrival_time` returns `t_start` plus the unique minimum
number of ticks elapsed since `t_start` — the least absolute arrival tick —
and the result is never below `t_start` (in particular never negative). -/
theorem claim7_returns_start_plus_min (s0 : State) (start goal : Point) (t0 : Nat)
    (states : List State) (hchain : CacheChain s0 states)
    (hlen : t0 + 1 ≤ states.length)
    (hpath : ∃ t, ReachF s0 start t0 goal t) :
    ∃ k fuel st,
      IsLeast {m | ReachF s0 start t0 goal (t0 + m)} k ∧
      arrival_time start goal t0 states fuel = SearchOutcome.found (t0 + k) st ∧
      t0 ≤ t0 + k := by
  obtain ⟨kstar, hk⟩ := exists_isLeast_reach s0 start goal t0 hpath
  obtain ⟨-, fuel, st, hfound, -, -, -⟩ :=
    arrival_time_spec s0 start goal t0 states kstar hk hchain hlen
  exact ⟨kstar, fuel, st, hk, hfound, by omega⟩

theorem claim7_witness :
    CacheChain exState [exState] ∧ 0 + 1 ≤ [exState].length ∧
    (∃ t, ReachF exState (-1, 0) 0 (1, 0) t) ∧
    (∃ k fuel st,
      IsLeast {m | ReachF exState (-1, 0) 0 (1, 0) (0 + m)} k ∧
      arrival_time (-1, 0) (1, 0) 0 [exState] fuel = SearchOutcome.found (0 + k) st ∧
      0 ≤ 0 + k) :=
  ⟨by decide, by decide, ⟨2, exState_reach 0⟩,
    claim7_returns_start_plus_min exState (-1, 0) (1, 0) 0 [exState] (by decide)
      (by decide) ⟨2, exState_reach 0⟩⟩

/-- C8: on a leg with `start ≠ end` whose goal is reachable, the search does
return, and every returned arrival tick is strictly greater than `t_start`. -/
theorem claim8_leg_strictly_later (s0 : State) (start goal : Point) (t0 : Nat)
    (states : List State) (hchain : CacheChain s0 states)
    (hlen : t0 + 1 ≤ states.length) (hne : start ≠ goal)
    (hpath : ∃ t, ReachF s0 start t0 goal t) :
    (∃ fuel v st, arrival_time start goal t0 states fuel = SearchOutcome.found v st) ∧
    (∀ fuel v st, arrival_time start goal t0 states fuel = SearchOutcome.found v st →
      t0 < v) := by
  obtain ⟨kstar, hk⟩ := exists_isLeast_reach s0 start goal t0 hpath
  obtain ⟨hall, fuel, st, hfound, -, -, -⟩ :=
    arrival_time_spec s0 start goal t0 states kstar hk hchain hlen
  refine ⟨⟨fuel, t0 + kstar, st, hfound⟩, ?_⟩
  intro fuel2 v st2 hf
  obtain ⟨hv, -, -, -⟩ := (hall fuel2).2.2 v st2 hf
  have hk0 : kstar ≠ 0 := by
    intro h0
    have hr := hk.1
    rw [h0] at hr
    exact hne (ReachF.eq_of_tick_eq hr).symm
  omega

theorem claim8_witness :
    CacheChain exState [exState] ∧ 0 + 1 ≤ [exState].length ∧
    ((-1, 0) : Point) ≠ ((1, 0) : Point) ∧
    (∃ t, ReachF exState (-1, 0) 0 (1, 0) t) ∧
    ((∃ fuel v st, arrival_time (-1, 0) (1, 0) 0 [exState] fuel =
        SearchOutcome.found v st) ∧
     (∀ fuel v st, arrival_time (-1, 0) (1, 0) 0 [exState] fuel =
        SearchOutcome.found v st → 0 < v)) :=
  ⟨by decide, by decide, by decide, ⟨2, exState_reach 0⟩,
    claim8_leg_strictly_later exState (-1, 0) (1, 0) 0 [exState] (by decide) (by decide)
      (by decide) ⟨2, exState_reach 0⟩⟩

/-- C10: with a non-empty gapless cache covering the departure tick and a
reachable goal, no panic branch is reachable: the search never reports the
cache panics (`unwrap` / `states[time + 1]`) and never reports "no path
found" (the `expect`). -/
theorem claim10_no_panic (s0 : State) (start goal : Point) (t0 : Nat)
    (states : List State) (hchain : CacheChain s0 states)
    (hlen : t0 + 1 ≤ states.length)
    (hpath : ∃ t, ReachF s0 start t0 goal t) :
    ∀ fuel, arrival_time start goal t0 states fuel ≠ SearchOutcome.cachePanic ∧
      (∀ st, arrival_time start goal t0 states fuel ≠ SearchOutcome.noPath st) := by
  obtain ⟨kstar, hk⟩ := exists_isLeast_reach s0 start goal t0 hpath
  obtain ⟨hall, -⟩ := arrival_time_spec s0 start goal t0 states kstar hk hchain hlen
  intro fuel
  exact ⟨(hall fuel).1, (hall fuel).2.1⟩

theorem claim10_witness :
    CacheChain exState [exState] ∧ 0 + 1 ≤ [exState].length ∧
    (∃ t, ReachF exState (-1, 0) 0 (1, 0) t) ∧
    (∀ fuel, arrival_time (-1, 0) (1, 0) 0 [exState] fuel ≠ SearchOutcome.cachePanic ∧
      (∀ st, arrival_time (-1, 0) (1, 0) 0 [exState] fuel ≠ SearchOutcome.noPath st)) :=
  ⟨by decide, by decide, ⟨2, exState_reach 0⟩,
    claim10_no_panic exState (-1, 0) (1, 0) 0 [exState] (by decide) (by decide)
      ⟨2, exState_reach 0⟩⟩

theorem cacheChain_singleton (s : State) : CacheChain s [s] := by
  intro i hi
  have hi0 : i = 0 := by
    simp only [List.length_singleton] at hi
    omega
  subst hi0
  rfl

/-- C6: `part2` chains exactly three legs — start→end, end→start, start→end —
the first departing at tick 0, each later leg departing at the previous leg's
returned arrival tick, all sharing one growing cache; the overall result is
the final leg's arrival tick, each leg's tick being least for its departure
state. -/
theorem claim6_part2_three_legs (s : State)
    (hse : ∀ t, ∃ u, ReachF s s.start t s.«end» u)
    (hes : ∀ t, ∃ u, ReachF s s.«end» t s.start u) :
    ∃ t1 t2 t3 fuel st,
      IsLeast {t | ReachF s s.start 0 s.«end» t} t1 ∧
      IsLeast {t | ReachF s s.«end» t1 s.start t} t2 ∧
      IsLeast {t | ReachF s s.start t2 s.«end» t} t3 ∧
      part2 s fuel = SearchOutcome.found t3 st := by
  obtain ⟨k1, hk1⟩ := exists_isLeast_reach s s.start s.«end» 0 (hse 0)
  obtain ⟨-, f1, st1, hf1, hc1, -, hcov1⟩ :=
    arrival_time_spec s s.start s.«end» 0 [s] k1 hk1 (cacheChain_singleton s) (by simp)
  obtain ⟨k2, hk2⟩ := exists_isLeast_reach s s.«end» s.start (0 + k1) (hes (0 + k1))
  obtain ⟨-, f2, st2, hf2, hc2, -, hcov2⟩ :=
    arrival_time_spec s s.«end» s.start (0 + k1) st1 k2 hk2 hc1 (by omega)
  obtain ⟨k3, hk3⟩ :=
    exists_isLeast_reach s s.start s.«end» (0 + k1 + k2) (hse (0 + k1 + k2))
  obtain ⟨-, f3, st3, hf3, hc3, -, hcov3⟩ :=
    arrival_time_spec s s.start s.«end» (0 + k1 + k2) st2 k3 hk3 hc2 (by omega)
  have hm1 : f1 ≤ max f1 (max f2 f3) := le_max_left _ _
  have hm2 : f2 ≤ max f1 (max f2 f3) := le_trans (le_max_left _ _) (le_max_right _ _)
  have hm3 : f3 ≤ max f1 (max f2 f3) := le_trans (le_max_right _ _) (le_max_right _ _)
  have hf1m := arrival_time_fuel_mono hm1 hf1
  have hf2m := arrival_time_fuel_mono hm2 hf2
  have hf3m := arrival_time_fuel_mono hm3 hf3
  refine ⟨0 + k1, 0 + k1 + k2, 0 + k1 + k2 + k3, max f1 (max f2 f3), st3,
    isLeast_abs hk1, isLeast_abs hk2, isLeast_abs hk3, ?_⟩
  unfold part2
  rw [hf1m]
  dsimp only
  rw [hf2m]
  dsimp only
  exact hf3m

theorem claim6_witness :
    (∀ t, ∃ u, ReachF exState exState.start t exState.«end» u) ∧
    (∀ t, ∃ u, ReachF exState exState.«end» t exState.start u) ∧
    (∃ t1 t2 t3 fuel st,
      IsLeast {t | ReachF exState exState.start 0 exState.«end» t} t1 ∧
      IsLeast {t | ReachF exState exState.«end» t1 exState.start t} t2 ∧
      IsLeast {t | ReachF exState exState.start t2 exState.«end» t} t3 ∧
      part2 exState fuel = SearchOutcome.found t3 st) :=
  ⟨fun t => ⟨t + 2, exState_reach t⟩, fun t => ⟨t + 2, exState_reach_rev t⟩,
    claim6_part2_three_legs exState (fun t => ⟨t + 2, exState_reach t⟩)
      (fun t => ⟨t + 2, exState_reach_rev t⟩)⟩

/-- C2: the successor states produced for a search state `(p, t)` are exactly
the candidates among `p` and its four orthogonal neighbors that are the start
cell, the end cell, or an interior cell unoccupied at tick `t + 1`, each
returned as `((p2, t + 1), 1)`. -/
theorem claim2_successors_exact (s0 : State) (states : List State) (p : Point)
    (t : Nat) (l : List ((Point × Nat) × Nat)) (states1 : List State)
    (hchain : CacheChain s0 states)
    (h : astarSuccessors states p t = some (l, states1)) :
    ∀ q u c, ((q, u), c) ∈ l ↔
      (u = t + 1 ∧ c = 1 ∧
        q ∈ [(p.1, p.2), (p.1 - 1, p.2), (p.1 + 1, p.2), (p.1, p.2 - 1), (p.1, p.2 + 1)] ∧
        (q = s0.start ∨ q = s0.«end» ∨
          (0 ≤ q.1 ∧ q.1 < s0.dimensions.1 ∧ 0 ≤ q.2 ∧ q.2 < s0.dimensions.2 ∧
            q ∉ (State.next^[t + 1] s0).obstacles))) := by
  obtain ⟨-, -, -, hl⟩ := astarSuccessors_some_inv hchain h
  subst hl
  intro q u c
  rw [List.mem_map]
  constructor
  · rintro ⟨n, hn, heq⟩
    have hq : n = q ∧ t + 1 = u ∧ 1 = c := by
      refine ⟨congrArg (fun x => x.1.1) heq, congrArg (fun x => x.1.2) heq,
        congrArg (fun x => x.2) heq⟩
    obtain ⟨rfl, rfl, rfl⟩ := hq
    have hm := mem_neighbors_iff.mp hn
    rw [iterate_start, iterate_end, iterate_dimensions] at hm
    exact ⟨rfl, rfl, hm.1, hm.2⟩
  · rintro ⟨rfl, rfl, hmem, hcond⟩
    refine ⟨q, ?_, rfl⟩
    rw [mem_neighbors_iff, iterate_start, iterate_end, iterate_dimensions]
    exact ⟨hmem, hcond⟩

theorem claim2_witness :
    CacheChain exState [exState] ∧
    astarSuccessors [exState] ((0 : Int), (0 : Int)) 0 =
      some ([((((0 : Int), (0 : Int)), 1), 1), ((((-1 : Int), (0 : Int)), 1), 1),
        ((((1 : Int), (0 : Int)), 1), 1)], [exState, exState]) ∧
    (∀ q u c,
      ((q, u), c) ∈ [((((0 : Int), (0 : Int)), 1), 1), ((((-1 : Int), (0 : Int)), 1), 1),
        ((((1 : Int), (0 : Int)), 1), 1)] ↔
      (u = 0 + 1 ∧ c = 1 ∧
        q ∈ [((0 : Int), (0 : Int)), (0 - 1, 0), (0 + 1, 0), (0, 0 - 1), (0, 0 + 1)] ∧
        (q = exState.start ∨ q = exState.«end» ∨
          (0 ≤ q.1 ∧ q.1 < exState.dimensions.1 ∧ 0 ≤ q.2 ∧ q.2 < exState.dimensions.2 ∧
            q ∉ (State.next^[0 + 1] exState).obstacles)))) :=
  ⟨by decide, by decide,
    claim2_successors_exact exState [exState] (0, 0) 0
      [((((0 : Int), (0 : Int)), 1), 1), ((((-1 : Int), (0 : Int)), 1), 1),
        ((((1 : Int), (0 : Int)), 1), 1)]
      [exState, exState] (by decide) (by decide)⟩

/-- C3: the time-slice cache is gapless: the fresh cache `[s0]` is a valid
iterate chain (entry 0 is the initial layout, with no step applied), and any
successful successors request keeps the cache a gapless chain — entry `i`
equals `i` applications of the one-tick step — only growing it, covering the
requested tick `t + 1`, and leaving entry 0 the initial layout. -/
theorem claim3_cache_gapless (s0 : State) (states : List State) (p : Point)
    (t : Nat) (l : List ((Point × Nat) × Nat)) (states1 : List State)
    (hchain : CacheChain s0 states)
    (h : astarSuccessors states p t = some (l, states1)) :
    CacheChain s0 [s0] ∧ CacheChain s0 states1 ∧ states.length ≤ states1.length ∧
    t + 2 ≤ states1.length ∧ states1.get? 0 = some s0 := by
  obtain ⟨hc1, hlen, hcov, -⟩ := astarSuccessors_some_inv hchain h
  refine ⟨cacheChain_singleton s0, hc1, hlen, hcov, ?_⟩
  have h0 := hc1 0 (by omega)
  rw [Function.iterate_zero_apply] at h0
  exact h0

theorem claim3_witness :
    CacheChain exState [exState] ∧
    astarSuccessors [exState] ((0 : Int), (0 : Int)) 0 =
      some ([((((0 : Int), (0 : Int)), 1), 1), ((((-1 : Int), (0 : Int)), 1), 1),
        ((((1 : Int), (0 : Int)), 1), 1)], [exState, exState]) ∧
    (CacheChain exState [exState] ∧ CacheChain exState [exState, exState] ∧
      [exState].length ≤ [exState, exState].length ∧
      0 + 2 ≤ [exState, exState].length ∧
      [exState, exState].get? 0 = some exState) :=
  ⟨by decide, by decide,
    claim3_cache_gapless exState [exState] (0, 0) 0
      [((((0 : Int), (0 : Int)), 1), 1), ((((-1 : Int), (0 : Int)), 1), 1),
        ((((1 : Int), (0 : Int)), 1), 1)]
      [exState, exState] (by decide) (by decide)⟩

/-- C4: for an obstacle inside the interior, one step adds the heading's unit
vector with toroidal wraparound on its axis (boundary `dim - 1` wraps to 0
and 0 wraps to `dim - 1`, via the modulus), the heading is unchanged, and
stepping `dim` times along the axis of motion returns it to its original
position. -/
theorem claim4_blizzard_wrap_cycle (s : State) (p : Point) (d : Direction)
    (hp : InInterior s p) :
    s.move_blizzard (p, d) =
      (((p.1 + (dirVec d).1) % s.dimensions.1,
        (p.2 + (dirVec d).2) % s.dimensions.2), d) ∧
    (s.move_blizzard (p, d)).2 = d ∧
    (s.move_blizzard)^[(axisDim s d).toNat] (p, d) = (p, d) :=
  ⟨move_blizzard_emod s p d hp, rfl, move_blizzard_cycle s p d hp⟩

theorem claim4_witness :
    InInterior exState2 ((0 : Int), (0 : Int)) ∧
    (exState2.move_blizzard (((0 : Int), (0 : Int)), Direction.Right) =
      (((0 + (dirVec Direction.Right).1) % exState2.dimensions.1,
        (0 + (dirVec Direction.Right).2) % exState2.dimensions.2), Direction.Right) ∧
     (exState2.move_blizzard (((0 : Int), (0 : Int)), Direction.Right)).2 =
        Direction.Right ∧
     (exState2.move_blizzard)^[(axisDim exState2 Direction.Right).toNat]
        (((0 : Int), (0 : Int)), Direction.Right) = ((0, 0), Direction.Right)) :=
  ⟨by decide, claim4_blizzard_wrap_cycle exState2 (0, 0) Direction.Right (by decide)⟩

/-- C9: if every obstacle and blizzard starts inside the interior, the start
cell is one row above the interior and the end cell one row below it, then no
time slice — the initial state or any iterate of the one-tick step — ever
occupies the start or end cell. -/
theorem claim9_endpoints_never_occupied (s : State)
    (hb : ∀ b ∈ s.blizzards, InInterior s b.1)
    (ho : ∀ p ∈ s.obstacles, InInterior s p)
    (hs : s.start.1 = -1) (he : s.«end».1 = s.dimensions.1) :
    ∀ t, s.start ∉ (State.next^[t] s).obstacles ∧
      s.«end» ∉ (State.next^[t] s).obstacles := by
  intro t
  constructor
  · intro hmem
    obtain ⟨h1, -, -, -⟩ := iterate_obstacles_interior s hb ho t s.start hmem
    omega
  · intro hmem
    obtain ⟨-, h2, -, -⟩ := iterate_obstacles_interior s hb ho t s.«end» hmem
    omega

theorem claim9_witness :
    (∀ b ∈ exState2.blizzards, InInterior exState2 b.1) ∧
    (∀ p ∈ exState2.obstacles, InInterior exState2 p) ∧
    exState2.start.1 = -1 ∧ exState2.«end».1 = exState2.dimensions.1 ∧
    (∀ t, exState2.start ∉ (State.next^[t] exState2).obstacles ∧
      exState2.«end» ∉ (State.next^[t] exState2).obstacles) :=
  ⟨by decide, by decide, by decide, by decide,
    claim9_endpoints_never_occupied exState2 (by decide) (by decide) (by decide)
      (by decide)⟩

end Day24
